import Mathlib

/-
Verification of the audio-generation pipeline in video/generate_audio.py.

Strings are embedded as List Char.  The fallible file read and the external
Polly client are embedded as explicit parameters (an Option for the file
content, a request-to-response function for the client).  Regex operations of
the source are embedded as first-match scanners over List Char:

  re.sub of the section-marker pattern   -> removeMarkers
  re.findall of the speak-block pattern  -> findSpeak
  re.split of the prosody-tag pattern    -> splitProsody

Functions of the source that walk forward through the text after a match are
written with an explicit fuel argument (the fuel is the length of the input,
which always suffices because every step consumes at least one character);
this keeps every definition structurally recursive and kernel-evaluable.
-/

namespace GenerateAudio

/-! ## Definitions -/

/-- Whether pat occurs as a contiguous substring (models the Python `in`
operator and re.search for a literal pattern). -/
def containsSubB (pat : List Char) : List Char → Bool
  | [] => pat.isPrefixOf []
  | c :: cs => pat.isPrefixOf (c :: cs) || containsSubB pat cs

/-- Split a text at the first occurrence of pat: returns the part strictly
before the match and the part strictly after it (none when pat is absent).
This is the primitive used to embed first-match regex behaviour. -/
def splitOnFirst (pat : List Char) : List Char → Option (List Char × List Char)
  | [] => if pat.isPrefixOf [] = true then some ([], []) else none
  | c :: cs =>
    if pat.isPrefixOf (c :: cs) = true then some ([], (c :: cs).drop pat.length)
    else
      match splitOnFirst pat cs with
      | some (a, b) => some (c :: a, b)
      | none => none

/-- The characters Python str.strip removes for an ASCII script (space, tab,
newline, carriage return, vertical tab, form feed). -/
def isPyWhitespace (c : Char) : Bool :=
  c = ' ' || c = '\t' || c = '\n' || c = '\r' || c = Char.ofNat 11 || c = Char.ofNat 12

/-- Whether content.strip() is falsy, i.e. the content is empty or made only
of whitespace. -/
def stripIsEmpty (cs : List Char) : Bool := cs.all isPyWhitespace

/-- The optional trailing newline of the section-marker pattern. -/
def dropOptNL : List Char → List Char
  | [] => []
  | a :: r => if a = '\n' then r else a :: r

/-- Match the part of the marker pattern after the literal prefix: one or more
characters other than a closing bracket, the closing bracket, then the
optional newline.  A greedy scan of the character class stops at the first
closing bracket, which is exactly what the regex engine matches.  Returns the
text after the whole match. -/
def markerTail (cs : List Char) : Option (List Char) :=
  match cs with
  | [] => none
  | d :: rest =>
    if d = ']' then none
    else
      match splitOnFirst [']'] rest with
      | some (_, after) => some (dropOptNL after)
      | none => none

/-- If cs begins with a section-marker match, return the remainder of cs after
the whole match (including the optional trailing newline), else none. -/
def markerMatch (cs : List Char) : Option (List Char) :=
  if ("[SECTION: ".toList).isPrefixOf cs = true then markerTail (cs.drop 10)
  else none

/-- One pass of re.sub with the section pattern: scan left to right, delete
each match, continue after the deleted match.  fuel bounds the recursion. -/
def removeMarkersF : Nat → List Char → List Char
  | 0, cs => cs
  | _ + 1, [] => []
  | f + 1, c :: cs =>
    match markerMatch (c :: cs) with
    | some rest => removeMarkersF f rest
    | none => c :: removeMarkersF f cs

/-- text_without_markers: re.sub of the section pattern with the empty
replacement, applied to the script text. -/
def removeMarkers (cs : List Char) : List Char := removeMarkersF cs.length cs

/-- All inner contents of speak blocks, in document order.  At each position,
a match requires the literal opening tag and then the shortest stretch of text
up to a closing tag (the lazy group); scanning resumes after the closing
tag. -/
def findSpeakF : Nat → List Char → List (List Char)
  | 0, _ => []
  | _ + 1, [] => []
  | f + 1, c :: cs =>
    if ("<speak>".toList).isPrefixOf (c :: cs) = true then
      match splitOnFirst ("</speak>".toList) ((c :: cs).drop 7) with
      | some (content, rest) => content :: findSpeakF f rest
      | none => findSpeakF f cs
    else findSpeakF f cs

/-- speak_contents: re.findall of the speak pattern with DOTALL, applied to
the marker-free text. -/
def findSpeak (cs : List Char) : List (List Char) := findSpeakF cs.length cs

/-- prosody_blocks: re.split of the captured prosody closing tag.  The result
alternates text pieces and the captured tag, ending with the text after the
last match. -/
def splitProsodyF : Nat → List Char → List (List Char)
  | 0, cs => [cs]
  | f + 1, cs =>
    match splitOnFirst ("</prosody>".toList) cs with
    | some (a, b) => a :: ("</prosody>".toList) :: splitProsodyF f b
    | none => [cs]

def splitProsody (cs : List Char) : List (List Char) := splitProsodyF cs.length cs

/-- The source loop walks the split output with stride two, concatenating each
text piece with the captured closing tag that follows it (or with nothing at
the very end); pairUp performs exactly that re-pairing. -/
def pairUp : List (List Char) → List (List Char)
  | [] => []
  | [b] => [b]
  | b :: t :: rest => (b ++ t) :: pairUp rest

/-- A segment is the buffered content wrapped in the speak root. -/
def wrapSpeak (c : List Char) : List Char :=
  ("<speak>".toList) ++ c ++ ("</speak>".toList)

/-- Inner content of a segment: the text with the 7-character opening wrapper
and the 8-character closing wrapper removed. -/
def removeWrap (s : List Char) : List Char :=
  (s.drop 7).take ((s.drop 7).length - 8)

/-- The block-accumulation loop of the source: skip blocks that strip to
nothing; flush the buffer as a segment when it is non-empty and the wrapped
buffer-plus-block would exceed the limit; otherwise extend the buffer.
Returns the emitted segments and the final buffer. -/
def pollyLoop (max_chars : Nat) : List (List Char) → List Char → List (List Char) × List Char
  | [], current => ([], current)
  | b :: rest, current =>
    if stripIsEmpty b = true then pollyLoop max_chars rest current
    else
      if current ≠ [] ∧ max_chars < (wrapSpeak (current ++ b)).length then
        let r := pollyLoop max_chars rest b
        (wrapSpeak current :: r.1, r.2)
      else pollyLoop max_chars rest (current ++ b)

/-- combined_content: inner contents of all speak blocks of the marker-free
text, joined with newlines. -/
def combined_content (text : List Char) : List Char :=
  List.intercalate ['\n'] (findSpeak (removeMarkers text))

/-- full_ssml: the whole combined content under one speak root. -/
def full_ssml (text : List Char) : List Char := wrapSpeak (combined_content text)

/-- The segments list as built by the loop and the final flush: split at
prosody boundaries, accumulate, then append the final buffer when its strip is
non-empty. -/
def pollySegments (text : List Char) (max_chars : Nat) : List (List Char) :=
  let r := pollyLoop max_chars (pairUp (splitProsody (combined_content text))) []
  if stripIsEmpty r.2 = true then r.1 else r.1 ++ [wrapSpeak r.2]

/-- split_for_polly (the source default for max_chars is 3000): remove
markers, extract and join speak contents, return the single wrapped content
when it fits, otherwise split at prosody boundaries; fall back to the single
oversized wrapped content when the loop produced nothing. -/
def split_for_polly (text : List Char) (max_chars : Nat) : List (List Char) :=
  if (full_ssml text).length ≤ max_chars then [full_ssml text]
  else if pollySegments text max_chars = [] then [full_ssml text]
  else pollySegments text max_chars

/-- The part of the section pattern after the literal prefix: at least one
character other than a closing bracket, then a later closing bracket (the
characters up to the first closing bracket all lie outside the class, which
is what the greedy character class matches). -/
def markerCoreB : List Char → Bool
  | [] => false
  | d :: rest => decide (d ≠ ']') && rest.contains ']'

/-- Whether the text begins with a match of the section pattern. -/
def isMarkerAtB (cs : List Char) : Bool :=
  ("[SECTION: ".toList).isPrefixOf cs && markerCoreB (cs.drop 10)

/-- Whether a substring matching the section pattern occurs anywhere. -/
def containsMarkerB : List Char → Bool
  | [] => false
  | c :: cs => isMarkerAtB (c :: cs) || containsMarkerB cs

/-- Error cases of the script reader: file absent, or blank content. -/
inductive ScriptError where
  | missingInput : ScriptError
  | emptyInput : ScriptError
deriving DecidableEq

/-- read_script, with the filesystem embedded as an Option (none when the
script file is absent): error when the file is absent, error when the content
strips to nothing, otherwise the content unchanged. -/
def read_script (file : Option (List Char)) : Except ScriptError (List Char) :=
  match file with
  | none => Except.error ScriptError.missingInput
  | some content =>
    if stripIsEmpty content = true then Except.error ScriptError.emptyInput
    else Except.ok content

/-- The two Polly engines used by the source. -/
inductive Engine where
  | neural : Engine
  | standard : Engine
deriving DecidableEq

/-- One synthesize_speech API request, field for field. -/
structure PollyRequest where
  engine : Engine
  languageCode : List Char
  outputFormat : List Char
  text : List Char
  textType : List Char
  voiceId : List Char
deriving DecidableEq

/-- A Polly response: the audio stream may be absent. -/
structure PollyResponse where
  audioStream : Option (List Nat)
deriving DecidableEq

def VOICE_ID : List Char := "Kendra".toList

def mkPollyRequest (engine : Engine) (text : List Char) (text_type : List Char) :
    PollyRequest :=
  ⟨engine, "en-US".toList, "mp3".toList, text, text_type, VOICE_ID⟩

/-- The check deciding whether the neural engine rejected the input as
unsupported: any of three substrings in the error message. -/
def isUnsupportedNeuralError (msg : List Char) : Bool :=
  containsSubB ("Unsupported".toList) msg || containsSubB ("Neural".toList) msg ||
    containsSubB ("does not support".toList) msg

/-- The outer handler re-raises every failure with this prefix. -/
def pollyFailMsg (e : List Char) : List Char :=
  ("Polly synthesis failed: ".toList) ++ e

/-- Extract the audio bytes from a response; a response without a stream is a
failure (raised inside the outer handler, hence prefixed by the caller). -/
def audioFromResponse (resp : PollyResponse) : Except (List Char) (List Nat) :=
  match resp.audioStream with
  | some bs => Except.ok bs
  | none => Except.error ("No audio stream in Polly response".toList)

/-- Wrap the result of the response handling with the outer failure prefix. -/
def wrapPollyErr (r : Except (List Char) (List Nat)) : Except (List Char) (List Nat) :=
  match r with
  | Except.ok b => Except.ok b
  | Except.error e => Except.error (pollyFailMsg e)

/-- The payload type derived from the SSML flag. -/
def text_type (is_ssml : Bool) : List Char :=
  if is_ssml then ("ssml".toList) else ("text".toList)

/-- synthesize_speech: build the text type from the SSML flag, request the
neural engine; on an error whose message indicates unsupported input, request
the standard engine once; any other neural failure and any standard failure
propagate (prefixed by the outer handler).  The Polly client is embedded as a
function from requests to either an error message or a response; the list of
requests issued, in order, is returned alongside the result so that retry
behaviour is visible. -/
def synthesize_speech (client : PollyRequest → Except (List Char) PollyResponse)
    (text : List Char) (is_ssml : Bool) :
    Except (List Char) (List Nat) × List PollyRequest :=
  match client (mkPollyRequest Engine.neural text (text_type is_ssml)) with
  | Except.ok resp =>
      (wrapPollyErr (audioFromResponse resp),
        [mkPollyRequest Engine.neural text (text_type is_ssml)])
  | Except.error e =>
    if isUnsupportedNeuralError e = true then
      match client (mkPollyRequest Engine.standard text (text_type is_ssml)) with
      | Except.ok resp =>
          (wrapPollyErr (audioFromResponse resp),
            [mkPollyRequest Engine.neural text (text_type is_ssml),
              mkPollyRequest Engine.standard text (text_type is_ssml)])
      | Except.error e2 =>
          (Except.error (pollyFailMsg e2),
            [mkPollyRequest Engine.neural text (text_type is_ssml),
              mkPollyRequest Engine.standard text (text_type is_ssml)])
    else
      (Except.error (pollyFailMsg e),
        [mkPollyRequest Engine.neural text (text_type is_ssml)])

/-- concatenate_audio: the byte-wise join of the MP3 segments. -/
def concatenate_audio (segments : List (List Nat)) : List Nat :=
  segments.flatten

/-- The SSML check of main: whether the opening tag occurs in the script. -/
def detect_is_ssml (script_content : List Char) : Bool :=
  containsSubB ("<speak>".toList) script_content

/-- A formalisation of the well-formedness wording of the specification for a
segment: a single speak root wrapping the inner content, with no further
speak tag, open or closing, inside the inner content. -/
def wellFormedSpeakB (s : List Char) : Bool :=
  decide (s = wrapSpeak (removeWrap s)) &&
    !containsSubB ("<speak>".toList) (removeWrap s) &&
    !containsSubB ("</speak>".toList) (removeWrap s)

/-- A client used to exercise the synthesis fallback: the neural engine
rejects the input as unsupported, the standard engine succeeds. -/
def fallbackClient : PollyRequest → Except (List Char) PollyResponse :=
  fun r =>
    match r.engine with
    | Engine.neural => Except.error ("Unsupported".toList)
    | Engine.standard => Except.ok ⟨some [7, 8, 9]⟩

/-! ## General lemmas -/

/-- Drop of an append at exactly the length of the left part. -/
theorem drop_append_len {α : Type} (l₁ l₂ : List α) : (l₁ ++ l₂).drop l₁.length = l₂ := by
  induction l₁ with
  | nil => rfl
  | cons a t ih => simp [ih]

/-- Take of an append at exactly the length of the left part. -/
theorem take_append_len {α : Type} (l₁ l₂ : List α) : (l₁ ++ l₂).take l₁.length = l₁ := by
  induction l₁ with
  | nil => rfl
  | cons a t ih => simp [ih]

/-- Drop distributes over an append when the count fits in the left part. -/
theorem drop_append_of_le {α : Type} (n : Nat) (l₁ l₂ : List α) (h : n ≤ l₁.length) :
    (l₁ ++ l₂).drop n = l₁.drop n ++ l₂ := by
  induction l₁ generalizing n with
  | nil =>
    have : n = 0 := by simpa using h
    simp [this]
  | cons a t ih =>
    cases n with
    | zero => simp
    | succ m => simpa using ih m (by simpa using h)

/-- Drop of an append past the whole left part. -/
theorem drop_append_add {α : Type} (l₁ l₂ : List α) (k : Nat) :
    (l₁ ++ l₂).drop (l₁.length + k) = l₂.drop k := by
  induction l₁ with
  | nil => simp
  | cons a t ih => simp [Nat.succ_add, ih]

/-- A member of a list of lists sits somewhere inside the flattening. -/
theorem mem_flatten_decomp {α : Type} (L : List (List α)) (p : List α) (hp : p ∈ L) :
    ∃ pre post, L.flatten = pre ++ p ++ post := by
  induction L with
  | nil => cases hp
  | cons q rest ih =>
    rcases List.mem_cons.mp hp with hq | hrest
    · exact ⟨[], rest.flatten, by simp [hq]⟩
    · obtain ⟨pre, post, hEq⟩ := ih hrest
      exact ⟨q ++ pre, post, by simp [hEq]⟩

theorem isPrefixOf_append_self (p t : List Char) : p.isPrefixOf (p ++ t) = true := by
  induction p with
  | nil => simp [List.isPrefixOf]
  | cons a q ih => simp [List.isPrefixOf, ih]

theorem eq_of_isPrefixOf (p s : List Char) (h : p.isPrefixOf s = true) :
    s = p ++ s.drop p.length := by
  induction p generalizing s with
  | nil => simp
  | cons a q ih =>
    cases s with
    | nil => simp [List.isPrefixOf] at h
    | cons b t =>
      simp only [List.isPrefixOf, Bool.and_eq_true, beq_iff_eq] at h
      simpa [h.1] using ih t h.2

theorem length_le_of_isPrefixOf (p s : List Char) (h : p.isPrefixOf s = true) :
    p.length ≤ s.length := by
  have hEq := eq_of_isPrefixOf p s h
  have : s.length = p.length + (s.drop p.length).length := by
    conv_lhs => rw [hEq]
    simp
  omega

theorem isPrefixOf_append_right (p s t : List Char) (h : p.isPrefixOf s = true) :
    p.isPrefixOf (s ++ t) = true := by
  induction p generalizing s with
  | nil => simp [List.isPrefixOf]
  | cons a q ih =>
    cases s with
    | nil => simp [List.isPrefixOf] at h
    | cons b u =>
      simp only [List.isPrefixOf, Bool.and_eq_true, beq_iff_eq] at h
      simp only [List.cons_append, List.isPrefixOf, Bool.and_eq_true, beq_iff_eq]
      exact ⟨h.1, ih u h.2⟩

theorem isPrefixOf_of_append (p s t : List Char) (h : p.isPrefixOf (s ++ t) = true)
    (hlen : p.length ≤ s.length) : p.isPrefixOf s = true := by
  induction p generalizing s with
  | nil => simp [List.isPrefixOf]
  | cons a q ih =>
    cases s with
    | nil => simp at hlen
    | cons b u =>
      simp only [List.cons_append, List.isPrefixOf, Bool.and_eq_true, beq_iff_eq] at h
      simp only [List.isPrefixOf, Bool.and_eq_true, beq_iff_eq]
      exact ⟨h.1, ih u h.2 (by simpa using hlen)⟩

/-- The decomposition equation of splitOnFirst. -/
theorem splitOnFirst_eq (pat cs a b : List Char)
    (h : splitOnFirst pat cs = some (a, b)) : cs = a ++ pat ++ b := by
  induction cs generalizing a b with
  | nil =>
    unfold splitOnFirst at h
    by_cases hp : pat.isPrefixOf ([] : List Char) = true
    · have hpat : pat = [] := by
        cases pat with
        | nil => rfl
        | cons x xs => simp [List.isPrefixOf] at hp
      rw [if_pos hp] at h
      simp only [Option.some.injEq, Prod.mk.injEq] at h
      obtain ⟨ha, hb⟩ := h
      subst ha; subst hb
      simp [hpat]
    · rw [if_neg hp] at h
      cases h
  | cons c cs ih =>
    unfold splitOnFirst at h
    by_cases hp : pat.isPrefixOf (c :: cs) = true
    · rw [if_pos hp] at h
      simp only [Option.some.injEq, Prod.mk.injEq] at h
      obtain ⟨ha, hb⟩ := h
      subst ha; subst hb
      have := eq_of_isPrefixOf pat (c :: cs) hp
      simpa using this
    · rw [if_neg hp] at h
      cases hrec : splitOnFirst pat cs with
      | none => rw [hrec] at h; cases h
      | some ab =>
        rcases ab with ⟨a', b'⟩
        rw [hrec] at h
        simp only [Option.some.injEq, Prod.mk.injEq] at h
        obtain ⟨ha, hb⟩ := h
        subst ha; subst hb
        have := ih a' b' hrec
        simp [this]

/-- The length of the remainder produced by splitOnFirst. -/
theorem splitOnFirst_len (pat cs a b : List Char)
    (h : splitOnFirst pat cs = some (a, b)) :
    b.length + pat.length ≤ cs.length := by
  have h1 := splitOnFirst_eq pat cs a b h
  have h2 : cs.length = a.length + pat.length + b.length := by
    rw [h1]; simp; omega
  omega

theorem stripIsEmpty_append (x y : List Char) :
    stripIsEmpty (x ++ y) = (stripIsEmpty x && stripIsEmpty y) := by
  simp [stripIsEmpty, List.all_append]

theorem dropOptNL_len (l : List Char) : (dropOptNL l).length ≤ l.length := by
  cases l with
  | nil => simp [dropOptNL]
  | cons a r =>
    by_cases h : a = '\n' <;> simp [dropOptNL, h]

theorem markerTail_len (cs rest : List Char) (h : markerTail cs = some rest) :
    rest.length + 2 ≤ cs.length := by
  cases cs with
  | nil => cases h
  | cons d tail =>
    simp only [markerTail] at h
    by_cases hd : d = ']'
    · rw [if_pos hd] at h; cases h
    · rw [if_neg hd] at h
      cases hsp : splitOnFirst [']'] tail with
      | none => rw [hsp] at h; cases h
      | some ab =>
        rcases ab with ⟨mid, after⟩
        rw [hsp] at h
        simp only [Option.some.injEq] at h
        subst h
        have h1 := splitOnFirst_len [']'] tail mid after hsp
        have h2 := dropOptNL_len after
        simp at h1
        simp only [List.length_cons]
        omega

/-- Every marker match consumes at least twelve characters. -/
theorem markerMatch_len (cs rest : List Char) (h : markerMatch cs = some rest) :
    rest.length + 12 ≤ cs.length := by
  unfold markerMatch at h
  by_cases hp : ("[SECTION: ".toList).isPrefixOf cs = true
  · rw [if_pos hp] at h
    have h1 := markerTail_len (cs.drop 10) rest h
    have h2 := length_le_of_isPrefixOf _ cs hp
    simp only [List.length_drop] at h1
    simp at h2
    omega
  · rw [if_neg hp] at h; cases h

/-- If the opening tag never occurs, findall yields nothing. -/
theorem findSpeakF_eq_nil (f : Nat) (cs : List Char)
    (h : containsSubB ("<speak>".toList) cs = false) : findSpeakF f cs = [] := by
  induction f generalizing cs with
  | zero => rfl
  | succ f ih =>
    cases cs with
    | nil => rfl
    | cons c cs =>
      unfold containsSubB at h
      simp only [Bool.or_eq_false_iff] at h
      unfold findSpeakF
      rw [if_neg (by simp only [h.1]; exact Bool.false_ne_true)]
      exact ih cs h.2

/-- One-step unfolding of the prosody split at positive fuel. -/
theorem splitProsodyF_succ (f : Nat) (cs : List Char) :
    splitProsodyF (f + 1) cs = (match splitOnFirst ("</prosody>".toList) cs with
      | some (a, b) => a :: ("</prosody>".toList) :: splitProsodyF f b
      | none => [cs]) := rfl

theorem removeWrap_wrapSpeak (c : List Char) : removeWrap (wrapSpeak c) = c := by
  have h7 : ("<speak>".toList).length = 7 := rfl
  have h1 := drop_append_len ("<speak>".toList) (c ++ ("</speak>".toList))
  rw [h7] at h1
  have h2 := take_append_len c ("</speak>".toList)
  unfold removeWrap wrapSpeak
  rw [List.append_assoc, h1]
  have h3 : (c ++ ("</speak>".toList)).length - 8 = c.length := by simp
  rw [h3]
  exact h2

theorem wrapSpeak_length (c : List Char) : (wrapSpeak c).length = c.length + 15 := by
  simp [wrapSpeak]

/-! ## Structure of the accumulation loop -/

/-- Every emitted segment is a wrapped buffer, and the buffers emitted plus
the final buffer concatenate to the initial buffer followed by all blocks
that do not strip to nothing, in order. -/
theorem pollyLoop_content (max_chars : Nat) (pieces : List (List Char)) :
    ∀ cur segs fin, pollyLoop max_chars pieces cur = (segs, fin) →
    ∃ parts : List (List Char), segs = parts.map wrapSpeak ∧
      parts.flatten ++ fin = cur ++ (pieces.filter (fun b => !stripIsEmpty b)).flatten := by
  induction pieces with
  | nil =>
    intro cur segs fin h
    simp only [pollyLoop, Prod.mk.injEq] at h
    obtain ⟨hs, hf⟩ := h
    subst hs; subst hf
    exact ⟨[], by simp⟩
  | cons b rest ih =>
    intro cur segs fin h
    by_cases hb : stripIsEmpty b = true
    · simp only [pollyLoop] at h
      rw [if_pos hb] at h
      obtain ⟨parts, hmap, hflat⟩ := ih cur segs fin h
      refine ⟨parts, hmap, ?_⟩
      rw [hflat]
      simp [List.filter, hb]
    · simp only [pollyLoop] at h
      rw [if_neg hb] at h
      by_cases hc : cur ≠ [] ∧ max_chars < (wrapSpeak (cur ++ b)).length
      · rw [if_pos hc] at h
        cases hr : pollyLoop max_chars rest b with
        | mk r1 r2 =>
          rw [hr] at h
          simp only [Prod.mk.injEq] at h
          obtain ⟨hs, hf⟩ := h
          subst hs; subst hf
          obtain ⟨parts, hmap, hflat⟩ := ih b r1 r2 hr
          refine ⟨cur :: parts, by simp [hmap], ?_⟩
          simp only [List.flatten_cons, List.append_assoc, hflat]
          simp [List.filter, hb]
      · rw [if_neg hc] at h
        obtain ⟨parts, hmap, hflat⟩ := ih (cur ++ b) segs fin h
        refine ⟨parts, hmap, ?_⟩
        rw [hflat]
        simp [List.filter, hb]

/-- Bound invariant of the loop: provided the initial buffer is empty, fits
the limit when wrapped, or is itself one of the blocks, every emitted segment
fits the limit or is the wrap of one of the blocks, and the final buffer is
empty, fits when wrapped, or is one of the blocks. -/
theorem pollyLoop_bound (max_chars : Nat) (pieces : List (List Char)) :
    ∀ (pieces0 : List (List Char)) cur segs fin,
    pollyLoop max_chars pieces cur = (segs, fin) →
    (∀ b ∈ pieces, b ∈ pieces0) →
    (cur = [] ∨ (wrapSpeak cur).length ≤ max_chars ∨ cur ∈ pieces0) →
    (∀ s ∈ segs, s.length ≤ max_chars ∨ ∃ b ∈ pieces0, s = wrapSpeak b) ∧
      (fin = [] ∨ (wrapSpeak fin).length ≤ max_chars ∨ fin ∈ pieces0) := by
  induction pieces with
  | nil =>
    intro pieces0 cur segs fin h hsub hcur
    simp only [pollyLoop, Prod.mk.injEq] at h
    obtain ⟨hs, hf⟩ := h
    subst hs; subst hf
    exact ⟨by simp, hcur⟩
  | cons b rest ih =>
    intro pieces0 cur segs fin h hsub hcur
    have hsub' : ∀ x ∈ rest, x ∈ pieces0 := fun x hx => hsub x (List.mem_cons_of_mem b hx)
    have hbmem : b ∈ pieces0 := hsub b (List.mem_cons_self b rest)
    by_cases hb : stripIsEmpty b = true
    · simp only [pollyLoop] at h
      rw [if_pos hb] at h
      exact ih pieces0 cur segs fin h hsub' hcur
    · simp only [pollyLoop] at h
      rw [if_neg hb] at h
      by_cases hc : cur ≠ [] ∧ max_chars < (wrapSpeak (cur ++ b)).length
      · rw [if_pos hc] at h
        cases hr : pollyLoop max_chars rest b with
        | mk r1 r2 =>
          rw [hr] at h
          simp only [Prod.mk.injEq] at h
          obtain ⟨hs, hf⟩ := h
          subst hs; subst hf
          obtain ⟨hsegs, hfin⟩ := ih pieces0 b r1 r2 hr hsub' (Or.inr (Or.inr hbmem))
          refine ⟨?_, hfin⟩
          intro s hs
          rcases List.mem_cons.mp hs with hcur' | hmem
          · subst hcur'
            rcases hcur with hnil | hle | hmem0
            · exact absurd hnil hc.1
            · exact Or.inl hle
            · exact Or.inr ⟨cur, hmem0, rfl⟩
          · exact hsegs s hmem
      · rw [if_neg hc] at h
        have hcur' : cur ++ b = [] ∨ (wrapSpeak (cur ++ b)).length ≤ max_chars ∨
            cur ++ b ∈ pieces0 := by
          by_cases hnil : cur = []
          · subst hnil
            simp [hbmem]
          · have : ¬ max_chars < (wrapSpeak (cur ++ b)).length := fun hlt => hc ⟨hnil, hlt⟩
            exact Or.inr (Or.inl (Nat.le_of_not_lt this))
        exact ih pieces0 (cur ++ b) segs fin h hsub' hcur'

/-- Concatenating the prosody blocks that do not strip to nothing recovers the
content up to a whitespace-only remainder: every piece except the final one
ends with the closing tag and therefore never strips to nothing. -/
theorem pairUp_splitProsodyF_filter (f : Nat) :
    ∀ c : List Char, c.length ≤ f →
    ∃ w, stripIsEmpty w = true ∧
      ((pairUp (splitProsodyF f c)).filter (fun b => !stripIsEmpty b)).flatten ++ w = c := by
  induction f with
  | zero =>
    intro c hc
    have hnil : c = [] := List.eq_nil_of_length_eq_zero (Nat.le_zero.mp hc)
    subst hnil
    refine ⟨[], by decide, ?_⟩
    simp [splitProsodyF, pairUp, List.filter, stripIsEmpty]
  | succ f ih =>
    intro c hc
    cases hsp : splitOnFirst ("</prosody>".toList) c with
    | none =>
      have heq : splitProsodyF (f + 1) c = [c] := by
        rw [splitProsodyF_succ, hsp]
      by_cases hce : stripIsEmpty c = true
      · refine ⟨c, hce, ?_⟩
        rw [heq]
        simp [pairUp, List.filter, hce]
      · refine ⟨[], by decide, ?_⟩
        rw [heq]
        simp [pairUp, List.filter, hce]
    | some ab =>
      rcases ab with ⟨a, b⟩
      have hceq := splitOnFirst_eq _ c a b hsp
      have hlen := splitOnFirst_len _ c a b hsp
      have heq : splitProsodyF (f + 1) c
          = a :: ("</prosody>".toList) :: splitProsodyF f b := by
        rw [splitProsodyF_succ, hsp]
      have hblen : b.length ≤ f := by
        have h10 : ("</prosody>".toList).length = 10 := by decide
        rw [h10] at hlen
        omega
      obtain ⟨w, hw, hflat⟩ := ih b hblen
      refine ⟨w, hw, ?_⟩
      have hkeep : stripIsEmpty (a ++ ("</prosody>".toList)) = false := by
        rw [stripIsEmpty_append]
        have htag : stripIsEmpty ("</prosody>".toList) = false := by decide
        rw [htag]
        simp
      have hpair : pairUp (a :: ("</prosody>".toList) :: splitProsodyF f b)
          = (a ++ ("</prosody>".toList)) :: pairUp (splitProsodyF f b) := by
        simp [pairUp]
      rw [heq, hpair, List.filter_cons, if_pos (by simp only [hkeep, Bool.not_false]),
        List.flatten_cons, List.append_assoc, hflat, hceq]

/-- The segments list of the splitting path consists of wraps of buffer
contents whose concatenation is the combined content up to a whitespace-only
remainder. -/
theorem pollySegments_spec (text : List Char) (max_chars : Nat) :
    ∃ (parts : List (List Char)) (w : List Char),
      pollySegments text max_chars = parts.map wrapSpeak ∧
      stripIsEmpty w = true ∧ parts.flatten ++ w = combined_content text := by
  cases hr : pollyLoop max_chars (pairUp (splitProsody (combined_content text))) [] with
  | mk r1 r2 =>
    obtain ⟨parts, hmap, hflat⟩ := pollyLoop_content _ _ [] r1 r2 hr
    obtain ⟨w0, hw0, hfw⟩ :=
      pairUp_splitProsodyF_filter (combined_content text).length (combined_content text)
        (Nat.le_refl _)
    rw [List.nil_append] at hflat
    have hfw' : (((pairUp (splitProsody (combined_content text))).filter
        (fun b => !stripIsEmpty b)).flatten : List Char) ++ w0 = combined_content text := hfw
    by_cases hfin : stripIsEmpty r2 = true
    · refine ⟨parts, r2 ++ w0, ?_, ?_, ?_⟩
      · simp [pollySegments, hr, hfin, hmap]
      · rw [stripIsEmpty_append, hfin, hw0]; rfl
      · rw [← List.append_assoc, hflat]
        exact hfw'
    · refine ⟨parts ++ [r2], w0, ?_, hw0, ?_⟩
      · simp [pollySegments, hr, hfin, hmap]
      · have : (parts ++ [r2]).flatten = parts.flatten ++ r2 := by simp
        rw [this, hflat]
        exact hfw'

/-- Every segment of the splitting path fits the limit or is the wrap of a
single prosody block. -/
theorem pollySegments_bound (text : List Char) (max_chars : Nat) (s : List Char)
    (hs : s ∈ pollySegments text max_chars) :
    s.length ≤ max_chars ∨
      ∃ b ∈ pairUp (splitProsody (combined_content text)), s = wrapSpeak b := by
  cases hr : pollyLoop max_chars (pairUp (splitProsody (combined_content text))) [] with
  | mk r1 r2 =>
    obtain ⟨hsegs, hfin⟩ := pollyLoop_bound max_chars _ _ [] r1 r2 hr
      (fun b hb => hb) (Or.inl rfl)
    simp only [pollySegments, hr] at hs
    by_cases hf : stripIsEmpty r2 = true
    · rw [if_pos hf] at hs
      exact hsegs s hs
    · rw [if_neg hf] at hs
      rcases List.mem_append.mp hs with hmem | hlast
      · exact hsegs s hmem
      · have hsr : s = wrapSpeak r2 := by simpa using hlast
        rcases hfin with hnil | hle | hmem0
        · subst hnil
          exact absurd (by decide : stripIsEmpty ([] : List Char) = true) hf
        · exact Or.inl (hsr ▸ hle)
        · exact Or.inr ⟨r2, hmem0, hsr⟩

/-! ## Marker containment lemmas -/

/-- A successful core match locates a closing bracket. -/
theorem markerCoreB_mem (z : List Char) (h : markerCoreB z = true) : ']' ∈ z := by
  cases z with
  | nil => cases h
  | cons d rest =>
    simp only [markerCoreB, Bool.and_eq_true, List.elem_iff] at h
    exact List.mem_cons_of_mem d h.2

/-- A core match extends to the right. -/
theorem markerCoreB_append (z y : List Char) (h : markerCoreB z = true) :
    markerCoreB (z ++ y) = true := by
  cases z with
  | nil => cases h
  | cons d rest =>
    simp only [markerCoreB, Bool.and_eq_true, List.elem_iff] at h
    simp only [List.cons_append, markerCoreB, Bool.and_eq_true, List.elem_iff]
    exact ⟨h.1, List.mem_append_left y h.2⟩

/-- A core match of an append whose right part holds no closing bracket is a
core match of the left part. -/
theorem markerCoreB_of_append (z w : List Char) (hw : ']' ∉ w)
    (h : markerCoreB (z ++ w) = true) : markerCoreB z = true := by
  cases z with
  | nil =>
    exact absurd (markerCoreB_mem w h) hw
  | cons d rest =>
    simp only [List.cons_append, markerCoreB, Bool.and_eq_true, List.elem_iff] at h
    rcases List.mem_append.mp h.2 with hmem | hmem
    · simp only [markerCoreB, Bool.and_eq_true, List.elem_iff]
      exact ⟨h.1, hmem⟩
    · exact absurd hmem hw

/-- No marker occurs in a text without an opening bracket. -/
theorem containsMarkerB_eq_false (w : List Char) (hw : '[' ∉ w) :
    containsMarkerB w = false := by
  induction w with
  | nil => rfl
  | cons c w' ih =>
    have hc : c ≠ '[' := by
      intro h
      exact hw (h ▸ List.mem_cons_self c w')
    have hpre : ("[SECTION: ".toList).isPrefixOf (c :: w') = false := by
      cases hp : ("[SECTION: ".toList).isPrefixOf (c :: w') with
      | false => rfl
      | true =>
        exfalso
        have hform : ("[SECTION: ".toList) = '[' :: ("SECTION: ".toList) := rfl
        rw [hform] at hp
        simp only [List.isPrefixOf, Bool.and_eq_true, beq_iff_eq] at hp
        exact hc hp.1.symm
    unfold containsMarkerB isMarkerAtB
    rw [hpre, ih (fun h => hw (List.mem_cons_of_mem c h))]
    rfl

/-- A marker at the head survives extension to the right. -/
theorem isMarkerAtB_append (y t : List Char) (h : isMarkerAtB y = true) :
    isMarkerAtB (y ++ t) = true := by
  simp only [isMarkerAtB, Bool.and_eq_true] at h
  have hlen : 10 ≤ y.length := by
    have := length_le_of_isPrefixOf _ y h.1
    simpa using this
  simp only [isMarkerAtB, Bool.and_eq_true]
  constructor
  · exact isPrefixOf_append_right _ y t h.1
  · rw [drop_append_of_le 10 y t hlen]
    exact markerCoreB_append _ t h.2

/-- A marker at the head of an append whose right part holds no closing
bracket is a marker at the head of the left part. -/
theorem isMarkerAtB_of_append (y w : List Char) (hw : ']' ∉ w)
    (h : isMarkerAtB (y ++ w) = true) : isMarkerAtB y = true := by
  simp only [isMarkerAtB, Bool.and_eq_true] at h
  by_cases hlen : 10 ≤ y.length
  · simp only [isMarkerAtB, Bool.and_eq_true]
    constructor
    · exact isPrefixOf_of_append _ y w h.1 (by simpa using hlen)
    · rw [drop_append_of_le 10 y w hlen] at h
      exact markerCoreB_of_append _ w hw h.2
  · exfalso
    have hdrop : (y ++ w).drop 10 = w.drop (10 - y.length) := by
      rw [List.drop_append_eq_append_drop]
      rw [List.drop_eq_nil_of_le (by omega : y.length ≤ 10)]
      rfl
    rw [hdrop] at h
    have := markerCoreB_mem _ h.2
    exact hw (List.mem_of_mem_drop this)

/-- A marker inside a text survives extension to the right. -/
theorem containsMarkerB_append_right (x y : List Char) (h : containsMarkerB x = true) :
    containsMarkerB (x ++ y) = true := by
  induction x with
  | nil => cases h
  | cons c x' ih =>
    simp only [containsMarkerB, Bool.or_eq_true] at h
    rcases h with h | h
    · have hthis := isMarkerAtB_append (c :: x') y h
      simp only [List.cons_append] at hthis
      simp only [List.cons_append]
      unfold containsMarkerB
      rw [hthis]
      rfl
    · simp only [List.cons_append]
      unfold containsMarkerB
      rw [ih h]
      simp

/-- A marker inside a text survives extension to the left. -/
theorem containsMarkerB_append_left (x y : List Char) (h : containsMarkerB y = true) :
    containsMarkerB (x ++ y) = true := by
  induction x with
  | nil => simpa using h
  | cons c x' ih =>
    simp only [List.cons_append]
    unfold containsMarkerB
    rw [ih]
    simp

/-- A marker inside an append whose left part holds no opening bracket lies in
the right part. -/
theorem containsMarkerB_of_append_left (w x : List Char) (hw : '[' ∉ w)
    (h : containsMarkerB (w ++ x) = true) : containsMarkerB x = true := by
  induction w with
  | nil => simpa using h
  | cons c w' ih =>
    have hc : c ≠ '[' := by
      intro hcc
      exact hw (hcc ▸ List.mem_cons_self c w')
    simp only [List.cons_append] at h
    unfold containsMarkerB at h
    rcases Bool.or_eq_true_iff.mp h with hat | hrest
    · exfalso
      have hform : ("[SECTION: ".toList) = '[' :: ("SECTION: ".toList) := rfl
      simp only [isMarkerAtB, Bool.and_eq_true] at hat
      rw [hform] at hat
      have := hat.1
      simp only [List.isPrefixOf, Bool.and_eq_true, beq_iff_eq] at this
      exact hc this.1.symm
    · exact ih (fun hm => hw (List.mem_cons_of_mem c hm)) hrest

/-- A marker inside an append whose right part holds neither bracket lies in
the left part. -/
theorem containsMarkerB_of_append_right (x w : List Char) (hw1 : '[' ∉ w)
    (hw2 : ']' ∉ w) (h : containsMarkerB (x ++ w) = true) :
    containsMarkerB x = true := by
  induction x with
  | nil =>
    simp only [List.nil_append] at h
    rw [containsMarkerB_eq_false w hw1] at h
    cases h
  | cons a x' ih =>
    simp only [List.cons_append] at h
    unfold containsMarkerB at h
    rcases Bool.or_eq_true_iff.mp h with hat | hrest
    · have : isMarkerAtB (a :: x') = true := by
        have := isMarkerAtB_of_append (a :: x') w hw2 (by simpa using hat)
        exact this
      unfold containsMarkerB
      rw [this]
      rfl
    · have := ih hrest
      unfold containsMarkerB
      rw [this]
      simp

/-- A marker inside a wrapped segment lies inside the wrapped content. -/
theorem containsMarkerB_wrapSpeak (c : List Char)
    (h : containsMarkerB (wrapSpeak c) = true) : containsMarkerB c = true := by
  unfold wrapSpeak at h
  rw [List.append_assoc] at h
  have h1 : containsMarkerB (c ++ ("</speak>".toList)) = true :=
    containsMarkerB_of_append_left ("<speak>".toList) _ (by decide) h
  exact containsMarkerB_of_append_right c ("</speak>".toList) (by decide) (by decide) h1

/-! ## Claims -/

/-- Claim C1, as stated, is false: on the input below split_for_polly returns
two segments, the first segment is not well-formed (the lazy speak extraction
leaves a nested opening tag inside the content, so the segment has two opening
tags and one closing tag), and the concatenation of the inner
contents of the segments differs from the original joined content (the whitespace-only
remainder after the last prosody tag is dropped). -/
theorem C1_counterexample :
    2 ≤ (split_for_polly ("<speak>aa<speak>bb</prosody>cccccc</prosody> </speak>".toList)
          30).length ∧
    ¬ ((∀ s ∈ split_for_polly ("<speak>aa<speak>bb</prosody>cccccc</prosody> </speak>".toList)
            30, wellFormedSpeakB s = true) ∧
       ((split_for_polly ("<speak>aa<speak>bb</prosody>cccccc</prosody> </speak>".toList)
            30).map removeWrap).flatten
         = combined_content ("<speak>aa<speak>bb</prosody>cccccc</prosody> </speak>".toList)) := by
  decide

/-- Claim C1, amended: when split_for_polly returns at least two segments,
every returned segment is the speak wrapper around its inner content (tags
already present inside the extracted content are carried through unchanged,
so stricter well-formedness is not guaranteed), and the concatenation of the
inner contents of the segments, extended by some whitespace-only remainder,
equals
the original joined content. -/
theorem C1_amended_partition (text : List Char) (max_chars : Nat)
    (h : 2 ≤ (split_for_polly text max_chars).length) :
    (∀ s ∈ split_for_polly text max_chars, s = wrapSpeak (removeWrap s)) ∧
    ∃ w, stripIsEmpty w = true ∧
      ((split_for_polly text max_chars).map removeWrap).flatten ++ w
        = combined_content text := by
  by_cases hle : (full_ssml text).length ≤ max_chars
  · exfalso
    unfold split_for_polly at h
    rw [if_pos hle] at h
    simp at h
  · by_cases hseg : pollySegments text max_chars = []
    · exfalso
      unfold split_for_polly at h
      rw [if_neg hle, if_pos hseg] at h
      simp at h
    · have hres : split_for_polly text max_chars = pollySegments text max_chars := by
        unfold split_for_polly
        rw [if_neg hle, if_neg hseg]
      obtain ⟨parts, w, hmap, hw, hflat⟩ := pollySegments_spec text max_chars
      rw [hres, hmap]
      constructor
      · intro s hs
        obtain ⟨p, _, hps⟩ := List.mem_map.mp hs
        rw [← hps, removeWrap_wrapSpeak]
      · refine ⟨w, hw, ?_⟩
        have hmm : (parts.map wrapSpeak).map removeWrap = parts := by
          rw [List.map_map]
          have hcomp : removeWrap ∘ wrapSpeak = id := funext removeWrap_wrapSpeak
          rw [hcomp, List.map_id]
        rw [hmm, hflat]

/-- Witness for the amended claim C1 at the counterexample input. -/
theorem C1_amended_partition_witness :
    (∀ s ∈ split_for_polly ("<speak>aa<speak>bb</prosody>cccccc</prosody> </speak>".toList) 30,
        s = wrapSpeak (removeWrap s)) ∧
    ∃ w, stripIsEmpty w = true ∧
      ((split_for_polly ("<speak>aa<speak>bb</prosody>cccccc</prosody> </speak>".toList)
          30).map removeWrap).flatten ++ w
        = combined_content ("<speak>aa<speak>bb</prosody>cccccc</prosody> </speak>".toList) :=
  C1_amended_partition ("<speak>aa<speak>bb</prosody>cccccc</prosody> </speak>".toList) 30
    (by decide)

/-- Claim C2, as stated, is false: on the input below the loop emits a
first segment of length 31 with max_chars 20 (a single prosody block placed
into an empty buffer is accepted unconditionally, however large), even though
segments were produced, so the only stated exception (the oversized fallback
with no segments) does not apply. -/
theorem C2_counterexample :
    ¬ ((∀ s ∈ split_for_polly ("<speak>abcdef</prosody>zz</speak>".toList) 20,
          s.length ≤ 20) ∨
       pollySegments ("<speak>abcdef</prosody>zz</speak>".toList) 20 = []) := by
  decide

/-- Claim C2, amended: every string returned by split_for_polly has length at
most max_chars, except when the result is the single full wrapped content
(the under-limit single-segment case or the documented oversized fallback),
and except segments that are the wrap of a single prosody block, emitted
oversized when the block alone exceeds the limit. -/
theorem C2_amended_length_bound (text : List Char) (max_chars : Nat) (s : List Char)
    (hs : s ∈ split_for_polly text max_chars) :
    s.length ≤ max_chars ∨ split_for_polly text max_chars = [full_ssml text] ∨
      ∃ b ∈ pairUp (splitProsody (combined_content text)), s = wrapSpeak b := by
  by_cases hle : (full_ssml text).length ≤ max_chars
  · refine Or.inr (Or.inl ?_)
    unfold split_for_polly
    rw [if_pos hle]
  · by_cases hseg : pollySegments text max_chars = []
    · refine Or.inr (Or.inl ?_)
      unfold split_for_polly
      rw [if_neg hle, if_pos hseg]
    · have hres : split_for_polly text max_chars = pollySegments text max_chars := by
        unfold split_for_polly
        rw [if_neg hle, if_neg hseg]
      rw [hres] at hs
      rcases pollySegments_bound text max_chars s hs with hlen | hex
      · exact Or.inl hlen
      · exact Or.inr (Or.inr hex)

/-- Witness for the amended claim C2 at the counterexample input: the
oversized first segment is the wrap of a single prosody block. -/
theorem C2_amended_length_bound_witness :
    ("<speak>abcdef</prosody></speak>".toList).length ≤ 20 ∨
    split_for_polly ("<speak>abcdef</prosody>zz</speak>".toList) 20
      = [full_ssml ("<speak>abcdef</prosody>zz</speak>".toList)] ∨
    ∃ b ∈ pairUp (splitProsody
        (combined_content ("<speak>abcdef</prosody>zz</speak>".toList))),
      ("<speak>abcdef</prosody></speak>".toList) = wrapSpeak b :=
  C2_amended_length_bound ("<speak>abcdef</prosody>zz</speak>".toList) 20
    ("<speak>abcdef</prosody></speak>".toList) (by decide)

/-- Claim C3: when the joined speak-block content wrapped in the speak root
fits max_chars, split_for_polly returns exactly that one wrapped segment,
holding all extracted content in document order with markers removed. -/
theorem C3_single_segment (text : List Char) (max_chars : Nat)
    (h : (wrapSpeak (combined_content text)).length ≤ max_chars) :
    split_for_polly text max_chars = [wrapSpeak (combined_content text)] := by
  unfold split_for_polly full_ssml
  rw [if_pos h]

/-- Witness for claim C3: the documented hello example. -/
theorem C3_single_segment_witness :
    (wrapSpeak (combined_content ("<speak>hello</speak>".toList))).length ≤ 3000 ∧
    split_for_polly ("<speak>hello</speak>".toList) 3000
      = [("<speak>hello</speak>".toList)] := by
  refine ⟨by decide, ?_⟩
  rw [C3_single_segment ("<speak>hello</speak>".toList) 3000 (by decide)]
  decide

/-- Claim C4, as stated, is false: the input below contains no speak opening
tag, yet marker removal splices the surrounding text into one, so the content
is retained rather than discarded. -/
theorem C4_counterexample :
    containsSubB ("<speak>".toList) ("<sp[SECTION: x]eak>hello</speak>".toList) = false ∧
    split_for_polly ("<sp[SECTION: x]eak>hello</speak>".toList) 3000
      ≠ [("<speak></speak>".toList)] := by
  decide

/-- Claim C4, amended: when the text after marker removal contains no speak
opening tag and max_chars is at least 15, split_for_polly returns exactly the
one-element list holding the empty speak root, discarding the input text
(marker removal can splice surrounding text into a new opening tag, in which
case content is retained). -/
theorem C4_amended_empty_output (text : List Char) (max_chars : Nat)
    (h1 : containsSubB ("<speak>".toList) (removeMarkers text) = false)
    (h2 : 15 ≤ max_chars) :
    split_for_polly text max_chars = [("<speak></speak>".toList)] := by
  have hf : findSpeak (removeMarkers text) = [] := findSpeakF_eq_nil _ _ h1
  have hc : combined_content text = [] := by
    unfold combined_content
    rw [hf]
    rfl
  have hfull : full_ssml text = ("<speak></speak>".toList) := by
    unfold full_ssml
    rw [hc]
    decide
  unfold split_for_polly
  rw [hfull]
  rw [if_pos (by simpa using h2)]

/-- Witness for the amended claim C4 on a plain-text script. -/
theorem C4_amended_empty_output_witness :
    split_for_polly ("no markup at all".toList) 3000 = [("<speak></speak>".toList)] :=
  C4_amended_empty_output ("no markup at all".toList) 3000 (by decide) (by decide)

/-- Claim C5: split_for_polly never returns an empty list, and when the
splitting loop produced no segments it returns the single full wrapped
content, regardless of its length. -/
theorem C5_fallback_nonempty (text : List Char) (max_chars : Nat) :
    split_for_polly text max_chars ≠ [] ∧
    (pollySegments text max_chars = [] →
      split_for_polly text max_chars = [full_ssml text]) := by
  constructor
  · unfold split_for_polly
    by_cases hle : (full_ssml text).length ≤ max_chars
    · rw [if_pos hle]
      simp
    · rw [if_neg hle]
      by_cases hseg : pollySegments text max_chars = []
      · rw [if_pos hseg]
        simp
      · rw [if_neg hseg]
        exact hseg
  · intro hseg
    unfold split_for_polly
    by_cases hle : (full_ssml text).length ≤ max_chars
    · rw [if_pos hle]
    · rw [if_neg hle, if_pos hseg]

/-- Witness for claim C5: a whitespace-only speak block over the limit yields
no loop segments, and the oversized full content is returned. -/
theorem C5_fallback_nonempty_witness :
    pollySegments ("<speak>   </speak>".toList) 10 = [] ∧
    split_for_polly ("<speak>   </speak>".toList) 10
      = [full_ssml ("<speak>   </speak>".toList)] ∧
    split_for_polly ("<speak>   </speak>".toList) 10 ≠ [] :=
  ⟨by decide, (C5_fallback_nonempty ("<speak>   </speak>".toList) 10).2 (by decide),
    (C5_fallback_nonempty ("<speak>   </speak>".toList) 10).1⟩

/-- Claim C6, as stated, is false: deleting a marker can splice the
surrounding text into a new substring matching the marker pattern, and the
single-pass removal does not rescan, so the spliced marker survives into the
returned segment. -/
theorem C6_counterexample :
    ¬ (∀ s ∈ split_for_polly ("<speak>[SECT[SECTION: q]ION: y]</speak>".toList) 3000,
        containsMarkerB s = false) := by
  decide

/-- Claim C6, amended: markers are removed in one left-to-right pass before
segmentation; whenever the joined extracted content contains no substring
matching the marker pattern, no returned segment contains one (a marker can
appear in a segment only when removal splices surrounding text into a new
marker that survives into the joined content). -/
theorem C6_amended_marker_free (text : List Char) (max_chars : Nat)
    (h : containsMarkerB (combined_content text) = false) :
    ∀ s ∈ split_for_polly text max_chars, containsMarkerB s = false := by
  have hfull : containsMarkerB (full_ssml text) = false := by
    cases hcf : containsMarkerB (full_ssml text) with
    | false => rfl
    | true =>
      exfalso
      have hcm := containsMarkerB_wrapSpeak (combined_content text) hcf
      rw [h] at hcm
      cases hcm
  intro s hs
  by_cases hle : (full_ssml text).length ≤ max_chars
  · unfold split_for_polly at hs
    rw [if_pos hle] at hs
    have : s = full_ssml text := by simpa using hs
    rw [this]
    exact hfull
  · by_cases hseg : pollySegments text max_chars = []
    · unfold split_for_polly at hs
      rw [if_neg hle, if_pos hseg] at hs
      have : s = full_ssml text := by simpa using hs
      rw [this]
      exact hfull
    · unfold split_for_polly at hs
      rw [if_neg hle, if_neg hseg] at hs
      obtain ⟨parts, w, hmap, hw, hflat⟩ := pollySegments_spec text max_chars
      rw [hmap] at hs
      obtain ⟨p, hp, hps⟩ := List.mem_map.mp hs
      cases hcs : containsMarkerB s with
      | false => rfl
      | true =>
        exfalso
        have hpm : containsMarkerB p = true := by
          apply containsMarkerB_wrapSpeak
          rw [hps]
          exact hcs
        obtain ⟨pre, post, hdecomp⟩ := mem_flatten_decomp parts p hp
        have hcomb : containsMarkerB (combined_content text) = true := by
          rw [← hflat, hdecomp, List.append_assoc, List.append_assoc]
          exact containsMarkerB_append_left pre _
            (containsMarkerB_append_right p _ hpm)
        rw [h] at hcomb
        cases hcomb

/-- Witness for the amended claim C6: a script with a marker line whose
removal leaves clean content. -/
theorem C6_amended_marker_free_witness :
    containsMarkerB (combined_content ("[SECTION: intro]\n<speak>hi</speak>".toList))
      = false ∧
    ∀ s ∈ split_for_polly ("[SECTION: intro]\n<speak>hi</speak>".toList) 3000,
      containsMarkerB s = false :=
  ⟨by decide,
    C6_amended_marker_free ("[SECTION: intro]\n<speak>hi</speak>".toList) 3000 (by decide)⟩

/-- Claim C7: the first request always uses the neural engine; the standard
engine is requested, exactly once and second, precisely when the neural
request failed with an error whose message indicates unsupported input; a
neural failure of any other kind propagates after the single neural request,
and a failure of the standard fallback propagates after the two requests with
no further request. -/
theorem C7_engine_fallback (client : PollyRequest → Except (List Char) PollyResponse)
    (text : List Char) (is_ssml : Bool) :
    ((synthesize_speech client text is_ssml).2.map (fun r => r.engine)
        = [Engine.neural, Engine.standard] ↔
      ∃ e, client (mkPollyRequest Engine.neural text (text_type is_ssml))
          = Except.error e ∧ isUnsupportedNeuralError e = true) ∧
    (∀ e, client (mkPollyRequest Engine.neural text (text_type is_ssml))
        = Except.error e → isUnsupportedNeuralError e = false →
      synthesize_speech client text is_ssml
        = (Except.error (pollyFailMsg e),
            [mkPollyRequest Engine.neural text (text_type is_ssml)])) ∧
    (∀ e e2, client (mkPollyRequest Engine.neural text (text_type is_ssml))
        = Except.error e → isUnsupportedNeuralError e = true →
      client (mkPollyRequest Engine.standard text (text_type is_ssml))
        = Except.error e2 →
      synthesize_speech client text is_ssml
        = (Except.error (pollyFailMsg e2),
            [mkPollyRequest Engine.neural text (text_type is_ssml),
              mkPollyRequest Engine.standard text (text_type is_ssml)])) ∧
    (∀ resp, client (mkPollyRequest Engine.neural text (text_type is_ssml))
        = Except.ok resp →
      (synthesize_speech client text is_ssml).2
        = [mkPollyRequest Engine.neural text (text_type is_ssml)]) := by
  cases hN : client (mkPollyRequest Engine.neural text (text_type is_ssml)) with
  | ok resp =>
    have hval : synthesize_speech client text is_ssml
        = (wrapPollyErr (audioFromResponse resp),
            [mkPollyRequest Engine.neural text (text_type is_ssml)]) := by
      unfold synthesize_speech
      rw [hN]
    refine ⟨?_, ?_, ?_, ?_⟩
    · rw [hval]
      simp only [List.map_cons, List.map_nil]
      constructor
      · intro hcontra
        simp [mkPollyRequest] at hcontra
      · rintro ⟨e, he, _⟩
        exact Except.noConfusion he
    · intro e he
      exact Except.noConfusion he
    · intro e e2 he
      exact Except.noConfusion he
    · intro resp2 _
      rw [hval]
  | error e =>
    by_cases hu : isUnsupportedNeuralError e = true
    · cases hS : client (mkPollyRequest Engine.standard text (text_type is_ssml)) with
      | ok resp =>
        have hval : synthesize_speech client text is_ssml
            = (wrapPollyErr (audioFromResponse resp),
                [mkPollyRequest Engine.neural text (text_type is_ssml),
                  mkPollyRequest Engine.standard text (text_type is_ssml)]) := by
          unfold synthesize_speech
          rw [hN]
          dsimp only
          rw [if_pos hu, hS]
        refine ⟨?_, ?_, ?_, ?_⟩
        · rw [hval]
          simp only [List.map_cons, List.map_nil, mkPollyRequest]
          exact ⟨fun _ => ⟨e, rfl, hu⟩, fun _ => trivial⟩
        · intro e' he' hu'
          injection he' with he'
          rw [← he'] at hu'
          rw [hu] at hu'
          exact Bool.noConfusion hu'
        · intro e' e2 he' _ hS'
          exact Except.noConfusion hS'
        · intro resp2 hresp
          exact Except.noConfusion hresp
      | error e2 =>
        have hval : synthesize_speech client text is_ssml
            = (Except.error (pollyFailMsg e2),
                [mkPollyRequest Engine.neural text (text_type is_ssml),
                  mkPollyRequest Engine.standard text (text_type is_ssml)]) := by
          unfold synthesize_speech
          rw [hN]
          dsimp only
          rw [if_pos hu, hS]
        refine ⟨?_, ?_, ?_, ?_⟩
        · rw [hval]
          simp only [List.map_cons, List.map_nil, mkPollyRequest]
          exact ⟨fun _ => ⟨e, rfl, hu⟩, fun _ => trivial⟩
        · intro e' he' hu'
          injection he' with he'
          rw [← he'] at hu'
          rw [hu] at hu'
          exact Bool.noConfusion hu'
        · intro e' e2' he' _ hS'
          injection hS' with hS'
          rw [hval, ← hS']
        · intro resp2 hresp
          exact Except.noConfusion hresp
    · have hval : synthesize_speech client text is_ssml
          = (Except.error (pollyFailMsg e),
              [mkPollyRequest Engine.neural text (text_type is_ssml)]) := by
        unfold synthesize_speech
        rw [hN]
        dsimp only
        rw [if_neg hu]
      refine ⟨?_, ?_, ?_, ?_⟩
      · rw [hval]
        simp only [List.map_cons, List.map_nil, mkPollyRequest]
        constructor
        · intro hcontra
          simp at hcontra
        · rintro ⟨e', he', hu'⟩
          injection he' with he'
          rw [← he'] at hu'
          exact absurd hu' hu
      · intro e' he' _
        injection he' with he'
        rw [hval, ← he']
      · intro e' e2 he' hu' _
        injection he' with he'
        rw [← he'] at hu'
        exact absurd hu' hu
      · intro resp2 hresp
        exact Except.noConfusion hresp

/-- Witness for claim C7: a client whose neural engine rejects the input as
unsupported and whose standard engine succeeds is called twice, neural then
standard. -/
theorem C7_engine_fallback_witness :
    (synthesize_speech fallbackClient ("hi".toList) false).2.map (fun r => r.engine)
      = [Engine.neural, Engine.standard] :=
  (C7_engine_fallback fallbackClient ("hi".toList) false).1.mpr
    ⟨("Unsupported".toList), rfl, by decide⟩

/-- Claim C8: read_script fails with MissingInput exactly when the file is
absent, fails with EmptyInput exactly when the content is empty or
whitespace-only, and otherwise returns the content unchanged. -/
theorem C8_read_script_spec (file : Option (List Char)) :
    (read_script file = Except.error ScriptError.missingInput ↔ file = none) ∧
    (read_script file = Except.error ScriptError.emptyInput ↔
      ∃ c, file = some c ∧ stripIsEmpty c = true) ∧
    (∀ c, file = some c → stripIsEmpty c = false → read_script file = Except.ok c) := by
  cases file with
  | none =>
    refine ⟨by simp [read_script], by simp [read_script], ?_⟩
    intro c hc
    cases hc
  | some c =>
    by_cases hc : stripIsEmpty c = true
    · refine ⟨by simp [read_script, hc], by simp [read_script, hc], ?_⟩
      intro c' hc' hstrip
      injection hc' with hc'
      rw [← hc'] at hstrip
      rw [hc] at hstrip
      cases hstrip
    · refine ⟨by simp [read_script, hc], by simp [read_script, hc], ?_⟩
      intro c' hc' _
      injection hc' with hc'
      rw [← hc']
      simp [read_script, hc]

/-- Witness for claim C8 on a present, non-blank script. -/
theorem C8_read_script_spec_witness :
    read_script (some ("hello".toList)) = Except.ok ("hello".toList) :=
  (C8_read_script_spec (some ("hello".toList))).2.2 ("hello".toList) rfl (by decide)

/-- The chunk of a flattening at a given index sits at the offset given by the
lengths of the earlier chunks. -/
theorem flatten_chunk_at (segments : List (List Nat)) :
    ∀ i (h : i < segments.length),
      ((segments.flatten).drop (((segments.take i).map List.length).sum)).take
          (segments.get ⟨i, h⟩).length
        = segments.get ⟨i, h⟩ := by
  induction segments with
  | nil =>
    intro i h
    cases h
  | cons s rest ih =>
    intro i h
    cases i with
    | zero =>
      simp only [List.take_zero, List.map_nil, List.sum_nil, List.drop_zero,
        List.get_cons_zero, List.flatten_cons]
      exact take_append_len s rest.flatten
    | succ j =>
      have hj : j < rest.length := by simpa using h
      simp only [List.flatten_cons, List.take_succ_cons, List.map_cons, List.sum_cons,
        List.get_cons_succ]
      rw [drop_append_add]
      exact ih j hj

/-- Claim C9: concatenate_audio is the byte-wise concatenation in input
order: the output length is the sum of the input lengths, and each chunk
appears at the offset given by the total length of the chunks before it. -/
theorem C9_concatenate_audio (segments : List (List Nat)) :
    (concatenate_audio segments).length = (segments.map List.length).sum ∧
    ∀ i (h : i < segments.length),
      ((concatenate_audio segments).drop (((segments.take i).map List.length).sum)).take
          (segments.get ⟨i, h⟩).length
        = segments.get ⟨i, h⟩ := by
  constructor
  · simp [concatenate_audio]
  · intro i h
    exact flatten_chunk_at segments i h

/-- Witness for claim C9 at a three-chunk input and the middle index. -/
theorem C9_concatenate_audio_witness :
    (concatenate_audio [[2, 3], [4], [5, 6]]).length
      = (([[2, 3], [4], [5, 6]] : List (List Nat)).map List.length).sum ∧
    ((concatenate_audio [[2, 3], [4], [5, 6]]).drop
        ((([[2, 3], [4], [5, 6]] : List (List Nat)).take 1).map List.length).sum).take
        (([[2, 3], [4], [5, 6]] : List (List Nat)).get ⟨1, by decide⟩).length
      = ([[2, 3], [4], [5, 6]] : List (List Nat)).get ⟨1, by decide⟩ :=
  ⟨(C9_concatenate_audio [[2, 3], [4], [5, 6]]).1,
    (C9_concatenate_audio [[2, 3], [4], [5, 6]]).2 1 (by decide)⟩

/-- Claim C10: for a script without the speak opening tag, the SSML check is
false, and every request issued by synthesize_speech for any segment of that
script carries the plain-text payload type. -/
theorem C10_plain_text_requests (script_content : List Char)
    (h : containsSubB ("<speak>".toList) script_content = false) :
    detect_is_ssml script_content = false ∧
    ∀ (client : PollyRequest → Except (List Char) PollyResponse) (seg : List Char),
      ∀ r ∈ (synthesize_speech client seg (detect_is_ssml script_content)).2,
        r.textType = ("text".toList) := by
  have hd : detect_is_ssml script_content = false := h
  refine ⟨hd, ?_⟩
  intro client seg r hr
  rw [hd] at hr
  have htt : text_type false = ("text".toList) := rfl
  cases hN : client (mkPollyRequest Engine.neural seg (text_type false)) with
  | ok resp =>
    have hval : (synthesize_speech client seg false).2
        = [mkPollyRequest Engine.neural seg (text_type false)] := by
      unfold synthesize_speech
      rw [hN]
    rw [hval] at hr
    have : r = mkPollyRequest Engine.neural seg (text_type false) := by simpa using hr
    rw [this, htt]
    rfl
  | error e =>
    by_cases hu : isUnsupportedNeuralError e = true
    · cases hS : client (mkPollyRequest Engine.standard seg (text_type false)) with
      | ok resp =>
        have hval : (synthesize_speech client seg false).2
            = [mkPollyRequest Engine.neural seg (text_type false),
                mkPollyRequest Engine.standard seg (text_type false)] := by
          unfold synthesize_speech
          rw [hN]
          dsimp only
          rw [if_pos hu, hS]
        rw [hval] at hr
        rcases List.mem_cons.mp hr with hr1 | hr2
        · rw [hr1, htt]
          rfl
        · have : r = mkPollyRequest Engine.standard seg (text_type false) := by
            simpa using hr2
          rw [this, htt]
          rfl
      | error e2 =>
        have hval : (synthesize_speech client seg false).2
            = [mkPollyRequest Engine.neural seg (text_type false),
                mkPollyRequest Engine.standard seg (text_type false)] := by
          unfold synthesize_speech
          rw [hN]
          dsimp only
          rw [if_pos hu, hS]
        rw [hval] at hr
        rcases List.mem_cons.mp hr with hr1 | hr2
        · rw [hr1, htt]
          rfl
        · have : r = mkPollyRequest Engine.standard seg (text_type false) := by
            simpa using hr2
          rw [this, htt]
          rfl
    · have hval : (synthesize_speech client seg false).2
          = [mkPollyRequest Engine.neural seg (text_type false)] := by
        unfold synthesize_speech
        rw [hN]
        dsimp only
        rw [if_neg hu]
      rw [hval] at hr
      have : r = mkPollyRequest Engine.neural seg (text_type false) := by simpa using hr
      rw [this, htt]
      rfl

/-- Witness for claim C10 on a plain script and the fallback-exercising
client. -/
theorem C10_plain_text_requests_witness :
    detect_is_ssml ("plain script".toList) = false ∧
    ∀ r ∈ (synthesize_speech fallbackClient ("plain script".toList)
        (detect_is_ssml ("plain script".toList))).2,
      r.textType = ("text".toList) :=
  ⟨(C10_plain_text_requests ("plain script".toList) (by decide)).1,
    (C10_plain_text_requests ("plain script".toList) (by decide)).2 fallbackClient
      ("plain script".toList)⟩

end GenerateAudio
